import Mathlib

/-!
Verification of the `plural` library (file `src/plural/__init__.py`).

The module exposes two functions:
* `set(*args, sep='|')` : builds a dictionary mapping generated keys to the
  word form selected by each request's quantity;
* `shortcuts()` : prints the catalog of predefined shortcut triples.

Everything below is a shallow embedding of that Python source.  Python
values that can appear as a request's "test value" are modelled by `PyVal`;
the dictionary is modelled as the insertion-ordered list of key/value
assignments, with lookup returning the last assignment for a key (exactly
the observable behaviour of a Python dict built by repeated assignment).
-/

namespace Plural

/-- Exceptions that the Python code can raise while resolving:
`TypeError` from indexing a tuple with a non-integer, `ValueError` from
`str.split` with an empty separator, `IndexError` from an out-of-range
tuple index. -/
inductive PyErr where
  | typeError
  | valueError
  | indexError
deriving DecidableEq, Repr

/-- Python values usable as a request's test value.  `float q` models a
Python float whose exact value is the integer `q` (for example `0.0`,
`1.0`, `2.0`); these are the floats whose behaviour against the literals
`0` and `1` matters, since every other float simply compares unequal to
both, exactly like the `str` case. -/
inductive PyVal where
  | int : Int → PyVal
  | bool : Bool → PyVal
  | float : Int → PyVal
  | str : String → PyVal
deriving DecidableEq, Repr

/-- Python `==` between two `PyVal`s: numeric types compare by value
(`True == 1`, `0.0 == 0`), strings compare by content, a string never
equals a number. -/
def pyEq : PyVal → PyVal → Bool
  | .int a, .int b => a == b
  | .int a, .bool b => a == (if b then (1 : Int) else 0)
  | .int a, .float b => a == b
  | .bool a, .int b => (if a then (1 : Int) else 0) == b
  | .bool a, .bool b => a == b
  | .bool a, .float b => (if a then (1 : Int) else 0) == b
  | .float a, .int b => a == b
  | .float a, .bool b => a == (if b then (1 : Int) else 0)
  | .float a, .float b => a == b
  | .str a, .str b => a == b
  | _, _ => false

/-- Lines 228-230 of the source:
`form = v[0]; if form not in (0, 1): form = 2`.
Membership in the tuple `(0, 1)` is Python `==` against the integer
literals; note that when the test succeeds the ORIGINAL value is kept and
later used as a tuple index. -/
def classify (q : PyVal) : PyVal :=
  if pyEq q (.int 0) || pyEq q (.int 1) then q else .int 2

/-- Conversion of a `PyVal` to a tuple index, as Python's indexing does:
`int` and `bool` have `__index__`, everything else raises `TypeError`. -/
def pyIndexVal : PyVal → Except PyErr Int
  | .int n => .ok n
  | .bool b => .ok (if b then 1 else 0)
  | _ => .error .typeError

/-- Python tuple/list indexing `l[i]` for an integer `i`: negative indices
count from the end, out-of-range indices raise `IndexError`. -/
def pyTupleGet (l : List String) (i : Int) : Except PyErr String :=
  let j : Int := if i < 0 then i + l.length else i
  if j < 0 then .error .indexError
  else
    match l.get? j.toNat with
    | some x => .ok x
    | none => .error .indexError

/-- `l[v]` for a `PyVal` index `v`, i.e. `regpl[r][form]` or `s[form]` in
the source. -/
def pyGetAt (l : List String) (v : PyVal) : Except PyErr String :=
  match pyIndexVal v with
  | .error e => .error e
  | .ok i => pyTupleGet l i

/-- Whether the first list is a prefix of the second (character lists). -/
def leadsWith : List Char → List Char → Bool
  | [], _ => true
  | _ :: _, [] => false
  | a :: as, b :: bs => a == b && leadsWith as bs

/-- Scan for the first occurrence of `sep`: returns the characters before
the occurrence and the characters after it, or `none` when `sep` does not
occur.  This is the single step of Python's `str.split`. -/
def findSep (sep : List Char) : List Char → Option (List Char × List Char)
  | [] => none
  | c :: rest =>
    if leadsWith sep (c :: rest) then some ([], (c :: rest).drop sep.length)
    else
      match findSep sep rest with
      | some (pre, post) => some (c :: pre, post)
      | none => none

/-- Python `s.split(sep, maxsplit)` for a non-empty separator: split on the
first occurrences, at most `maxsplit` times, the remainder is kept whole. -/
def splitCapped (sep : List Char) : Nat → List Char → List (List Char)
  | 0, s => [s]
  | fuel + 1, s =>
    match findSep sep s with
    | none => [s]
    | some (pre, post) => pre :: splitCapped sep fuel post

/-- `p.split(sep, maxsplit)` on strings.  Python raises
`ValueError: empty separator` when `sep` is the empty string. -/
def pySplit (p sep : String) (maxsplit : Nat) : Except PyErr (List String) :=
  if sep = "" then .error .valueError
  else .ok ((splitCapped sep.data maxsplit p.data).map List.asString)

/-- Lines 241-247 of the source: a 2-element split `[a, b]` becomes
`[b, a, b]` (the code appends `s[1]`, copies `s[0]` into `s[1]` and
`s[2]` into `s[0]`), a 1-element split `[a]` becomes `[a, a, a]`, and a
3-element split is left unchanged. -/
def reorderFields : List String → List String
  | [a] => [a, a, a]
  | [a, b] => [b, a, b]
  | l => l

/-- Python `str.upper()` on one character: the catalog contains only ASCII
letters, for which `upper()` is exactly the ASCII case map. -/
def upChar (c : Char) : Char :=
  if 'a' ≤ c ∧ c ≤ 'z' then Char.ofNat (c.toNat - 32) else c

/-- Python `str.upper()` on a string (ASCII data, see `upChar`). -/
def upStr (s : String) : String := (s.data.map upChar).asString

/-- The decimal digit character for `d < 10`. -/
def digitChar (d : Nat) : Char := Char.ofNat (48 + d)

/-- Decimal digits of `n` (most significant first), computed with explicit
fuel so that the definition is structural and kernel-reducible; any
`fuel ≥ n` gives the digits of `n`. -/
def decAux : Nat → Nat → List Char
  | 0, _ => []
  | fuel + 1, n => if n = 0 then [] else decAux fuel (n / 10) ++ [digitChar (n % 10)]

/-- Python `str(n)` for a natural number `n` (the request index). -/
def decStr (n : Nat) : String := if n = 0 then "0" else (decAux n n).asString

/-- Numeric value of a decimal digit character. -/
def digitVal (c : Char) : Nat := c.toNat - 48

/-- Value of a big-endian digit string; used to prove `decStr` injective. -/
def valOf (l : List Char) : Nat := l.foldl (fun a c => 10 * a + digitVal c) 0

/-- Lines 29-40 of the source: the module-level catalog `regpl` of
predefined `(null, singular, plural)` triples, in its source order.  Each
value tuple is modelled as a 3-element list because the source indexes it
with the (possibly non-integer) `form` value. -/
def regpl : List (String × List String) :=
  [("s", ["s", "", "s"]),
   ("es", ["es", "", "es"]),
   ("y", ["ies", "y", "ies"]),
   ("ies", ["ies", "y", "ies"]),
   ("this", ["these", "this", "these"]),
   ("these", ["these", "this", "these"]),
   ("that", ["those", "that", "those"]),
   ("those", ["those", "that", "those"]),
   ("is", ["are", "is", "are"]),
   ("are", ["are", "is", "are"])]

/-- Lines 234-236 of the source: for every catalog entry `r`, assign
`result['P' + n + r] = regpl[r][form]` and
`result['P' + n + r.upper()] = regpl[r][form].upper()`, in catalog order.
The produced list records the assignments in order. -/
def shortcutPairs (n : String) (form : PyVal) :
    List (String × List String) → Except PyErr (List (String × String))
  | [] => .ok []
  | (r, fs) :: rest =>
    match pyGetAt fs form with
    | .error e => .error e
    | .ok val =>
      match shortcutPairs n form rest with
      | .error e => .error e
      | .ok tail =>
        .ok (("P" ++ n ++ r, val) :: ("P" ++ n ++ upStr r, upStr val) :: tail)

/-- Lines 238-248 of the source: for every candidate string `p` of the
request, split it (capped at two splits), reorder the fields, select the
field at index `form`, and assign it to key `'P' + n + sep + p` built from
the original unsplit string. -/
def customPairs (sep n : String) (form : PyVal) :
    List String → Except PyErr (List (String × String))
  | [] => .ok []
  | p :: rest =>
    match pySplit p sep 2 with
    | .error e => .error e
    | .ok parts =>
      match pyGetAt (reorderFields parts) form with
      | .error e => .error e
      | .ok sel =>
        match customPairs sep n form rest with
        | .error e => .error e
        | .ok tail => .ok (("P" ++ n ++ sep ++ p, sel) :: tail)

/-- One element of `*args`: the test value followed by zero or more
candidate strings. -/
structure Request where
  quantity : PyVal
  strings : List String
deriving DecidableEq, Repr

/-- The body of the `for n, v in enumerate(args)` loop for a single
request: classify the quantity, emit the shortcut assignments, then the
candidate-string assignments. -/
def processRequest (sep n : String) (req : Request) : Except PyErr (List (String × String)) :=
  let form := classify req.quantity
  match shortcutPairs n form regpl with
  | .error e => .error e
  | .ok sc =>
    match customPairs sep n form req.strings with
    | .error e => .error e
    | .ok cust => .ok (sc ++ cust)

/-- The enumeration loop of `set`, carrying the running index `k`. -/
def setGo (sep : String) : Nat → List Request → Except PyErr (List (String × String))
  | _, [] => .ok []
  | k, req :: rest =>
    match processRequest sep (decStr k) req with
    | .error e => .error e
    | .ok pairs =>
      match setGo sep (k + 1) rest with
      | .error e => .error e
      | .ok tail => .ok (pairs ++ tail)

/-- The public `plural.set(*args, sep='|')`: the full ordered list of
dictionary assignments, or the exception that aborts the call.  An
exception yields no dictionary at all (`result` is discarded), matching
Python's all-or-nothing behaviour for a raising call. -/
def set (args : List Request) (sep : String := "|") : Except PyErr (List (String × String)) :=
  setGo sep 0 args

/-- Lookup in the assignment list, last assignment wins: this is the value
a Python dict built by those assignments associates to `k` (and `none`
when the key was never assigned). -/
def dictGet : List (String × String) → String → Option String
  | [], _ => none
  | kv :: rest, k =>
    match dictGet rest k with
    | some v => some v
    | none => if kv.1 = k then some kv.2 else none

/-- Lines 253-262 of the source: `plural.shortcuts()` walks the catalog
and, for every entry, prints the row `(name, null, singular, plural)` and
its uppercase-derived row.  The function models the finite sequence of
rows it emits, in emission order. -/
def shortcuts : List (String × String × String × String) :=
  (regpl.map (fun e =>
    [(e.1, e.2.getD 0 "", e.2.getD 1 "", e.2.getD 2 ""),
     (upStr e.1, upStr (e.2.getD 0 ""), upStr (e.2.getD 1 ""),
      upStr (e.2.getD 2 ""))])).flatten

/-- `cleanBefore sep z = true` when no occurrence of `sep` starts at a
position strictly before `z.length` in `z ++ sep`; equivalently, in
`z ++ sep ++ t` the first occurrence of `sep` starts exactly at the end
of `z`.  (An occurrence starting inside `z` fits entirely inside
`z ++ sep`, so the condition does not depend on `t`.) -/
def cleanBefore (sep : List Char) : List Char → Bool
  | [] => true
  | c :: z => !leadsWith sep (c :: (z ++ sep)) && cleanBefore sep z

/-- Whether `sep` occurs somewhere in the character list (for non-empty
`sep` this is Python's `sep in s`). -/
def containsSeq (sep : List Char) : List Char → Bool
  | [] => false
  | c :: rest => leadsWith sep (c :: rest) || containsSeq sep rest

/-- A string whose first character exists and is not a decimal digit;
every shortcut name has this shape, which separates the request index from
the shortcut name inside a generated key. -/
def nonDigitHead (w : String) : Bool :=
  match w.data with
  | [] => false
  | c :: _ => !c.isDigit

/-- Quantities that Python can use as a tuple index after classification:
integers and booleans. -/
def intOrBool : PyVal → Bool
  | .int _ => true
  | .bool _ => true
  | _ => false

/-- The pure shape of a request's shortcut assignments when the category
index is the natural number `k`: key `P{n}{r}` gets field `k` of the
entry, key `P{n}{R}` gets its uppercase. -/
def scList (n : String) (k : Nat) : List (String × List String) → List (String × String)
  | [] => []
  | (r, fs) :: rest =>
    ("P" ++ n ++ r, fs.getD k "") ::
    ("P" ++ n ++ upStr r, upStr (fs.getD k "")) :: scList n k rest

end Plural

namespace Plural

theorem asString_data (w : String) : w.data.asString = w := by
  cases w; rfl

theorem str_append_right_inj (s a b : String) : s ++ a = s ++ b ↔ a = b := by
  constructor
  · intro h
    have hd := congrArg String.data h
    rw [String.data_append, String.data_append] at hd
    exact String.ext (List.append_cancel_left hd)
  · intro h; rw [h]

theorem dictGet_cons (kv : String × String) (m : List (String × String)) (k : String) :
    dictGet (kv :: m) k =
      match dictGet m k with
      | some v => some v
      | none => if kv.1 = k then some kv.2 else none := rfl

theorem dictGet_append_of_some {b : List (String × String)} {k : String} {v : String}
    (a : List (String × String)) (h : dictGet b k = some v) :
    dictGet (a ++ b) k = some v := by
  induction a with
  | nil => simpa using h
  | cons kv a ih => rw [List.cons_append, dictGet_cons, ih]

theorem dictGet_append_of_none {b : List (String × String)} {k : String}
    (a : List (String × String)) (h : dictGet b k = none) :
    dictGet (a ++ b) k = dictGet a k := by
  induction a with
  | nil => simpa using h
  | cons kv a ih => rw [List.cons_append, dictGet_cons, ih, dictGet_cons]

theorem dictGet_eq_none {m : List (String × String)} {k : String}
    (h : ∀ kv ∈ m, kv.1 ≠ k) : dictGet m k = none := by
  induction m with
  | nil => rfl
  | cons kv m ih =>
    have h1 : kv.1 ≠ k := h kv (by simp)
    have h2 : dictGet m k = none := ih (fun x hx => h x (by simp [hx]))
    simp [dictGet, h2, h1]

theorem classify_int (q : Int) :
    classify (.int q) = .int (if q = 0 then 0 else if q = 1 then 1 else 2) := by
  by_cases h0 : q = 0
  · subst h0; rfl
  · by_cases h1 : q = 1
    · subst h1; rfl
    · simp [classify, pyEq, h0, h1]

theorem pyEq_not_both {q : PyVal} (h0 : pyEq q (.int 0) = true) :
    pyEq q (.int 1) = false := by
  cases q with
  | int n => simp [pyEq] at h0 ⊢; omega
  | bool b => cases b <;> simp_all [pyEq]
  | float f => simp [pyEq] at h0 ⊢; omega
  | str s => simp [pyEq] at h0

theorem pyGetAt_three (a b c sel : String) (q : PyVal)
    (h : pyGetAt [a, b, c] (classify q) = .ok sel) :
    sel = if pyEq q (.int 0) then a else if pyEq q (.int 1) then b else c := by
  cases q with
  | int n =>
    by_cases h0 : n = 0
    · subst h0
      simp [pyGetAt, pyIndexVal, pyTupleGet, classify, pyEq] at h
      simp [pyEq, ← h]
    · by_cases h1 : n = 1
      · subst h1
        simp [pyGetAt, pyIndexVal, pyTupleGet, classify, pyEq] at h
        simp [pyEq, ← h]
      · rw [classify_int] at h
        simp [h0, h1, pyGetAt, pyIndexVal, pyTupleGet] at h
        simp [pyEq, h0, h1, ← h]
  | bool bb =>
    cases bb <;>
      (simp [pyGetAt, pyIndexVal, pyTupleGet, classify, pyEq] at h; simp [pyEq, ← h])
  | float f =>
    by_cases h0 : f = 0
    · subst h0; simp [classify, pyEq, pyGetAt, pyIndexVal] at h
    · by_cases h1 : f = 1
      · subst h1; simp [classify, pyEq, pyGetAt, pyIndexVal] at h
      · simp [classify, pyEq, h0, h1, pyGetAt, pyIndexVal, pyTupleGet] at h
        simp [pyEq, h0, h1, ← h]
  | str s =>
    simp [classify, pyEq, pyGetAt, pyIndexVal, pyTupleGet] at h
    simp [pyEq, ← h]

end Plural

namespace Plural

theorem set_single {q : PyVal} {p sep : String} {m : List (String × String)}
    (hm : set [⟨q, [p]⟩] sep = .ok m) :
    ∃ parts sel, pySplit p sep 2 = .ok parts ∧
      pyGetAt (reorderFields parts) (classify q) = .ok sel ∧
      dictGet m ("P" ++ decStr 0 ++ sep ++ p) = some sel := by
  unfold set setGo at hm
  cases hsc : shortcutPairs (decStr 0) (classify q) regpl with
  | error e => simp [processRequest, hsc] at hm
  | ok sc =>
    cases hsp : pySplit p sep 2 with
    | error e => simp [processRequest, customPairs, hsc, hsp] at hm
    | ok parts =>
      cases hsel : pyGetAt (reorderFields parts) (classify q) with
      | error e => simp [processRequest, customPairs, hsc, hsp, hsel] at hm
      | ok sel =>
        refine ⟨parts, sel, by simp [hsp], by simp [hsel], ?_⟩
        simp [processRequest, customPairs, setGo, hsc, hsp, hsel] at hm
        subst hm
        exact dictGet_append_of_some sc (by simp [dictGet])

end Plural

namespace Plural

/-- C2: for a candidate string splitting into exactly two fields `f1, f2`,
`set` keys `P0{sep}{p}` to `f1` when the quantity compares equal to the
integer 1 and to `f2` for every other quantity that resolves, and the two
concrete examples of the claim hold: `resolve((0, "leaf|leaves"))` maps
`"P0|leaf|leaves"` to `"leaves"`, and with separator `"<x>"`,
`resolve((1, "Leaf<x>Leaves"))` maps `"P0<x>Leaf<x>Leaves"` to `"Leaf"`. -/
theorem c2_two_field_selection :
    (∀ (q : PyVal) (sep p f1 f2 : String) (m : List (String × String)),
      set [⟨q, [p]⟩] sep = .ok m →
      pySplit p sep 2 = .ok [f1, f2] →
      dictGet m ("P" ++ decStr 0 ++ sep ++ p) =
        some (if pyEq q (.int 1) then f1 else f2)) ∧
    (set [⟨.int 0, ["leaf|leaves"]⟩] "|").toOption.bind
        (fun m => dictGet m "P0|leaf|leaves") = some "leaves" ∧
    (set [⟨.int 1, ["Leaf<x>Leaves"]⟩] "<x>").toOption.bind
        (fun m => dictGet m "P0<x>Leaf<x>Leaves") = some "Leaf" := by
  refine ⟨?_, rfl, rfl⟩
  intro q sep p f1 f2 m hm hsp
  obtain ⟨parts, sel, hsp', hsel, hget⟩ := set_single hm
  rw [hsp] at hsp'
  cases hsp'
  have h3 := pyGetAt_three f2 f1 f2 sel q hsel
  rw [hget, h3]
  cases h0 : pyEq q (.int 0) with
  | false => simp
  | true => simp [pyEq_not_both h0]

theorem c2_witness :
    pySplit "a|b" "|" 2 = .ok ["a", "b"] ∧
    dictGet ((set [⟨PyVal.int 3, ["a|b"]⟩] "|").toOption.getD [])
      ("P" ++ decStr 0 ++ "|" ++ "a|b") = some "b" :=
  ⟨rfl, c2_two_field_selection.1 (PyVal.int 3) "|" "a|b" "a" "b" _ rfl rfl⟩

/-- C4 as stated is false: for the two-field candidate `"a|b"` the claim
predicts that the singular category (quantity 1) selects the second field
`"b"`, but the code selects the first field `"a"`. -/
theorem c4_counterexample :
    (set [⟨PyVal.int 1, ["a|b"]⟩] "|").toOption.bind
        (fun m => dictGet m "P0|a|b") = some "a" ∧ ("a" : String) ≠ "b" :=
  ⟨rfl, by decide⟩

/-- C4 amended: a two-field split `[f1, f2]` is interpreted as
`(singular, plural)` and re-ordered to `(plural, singular, plural)`, i.e.
`[f2, f1, f2]`, so the zero and plural categories select `f2` and the
singular category selects `f1`. -/
theorem c4_two_field_reorder :
    (∀ f1 f2 : String, reorderFields [f1, f2] = [f2, f1, f2]) ∧
    (∀ (q : PyVal) (sep p f1 f2 : String) (m : List (String × String)),
      set [⟨q, [p]⟩] sep = .ok m →
      pySplit p sep 2 = .ok [f1, f2] →
      dictGet m ("P" ++ decStr 0 ++ sep ++ p) =
        some (if pyEq q (.int 0) then f2 else if pyEq q (.int 1) then f1 else f2)) := by
  refine ⟨fun f1 f2 => rfl, ?_⟩
  intro q sep p f1 f2 m hm hsp
  obtain ⟨parts, sel, hsp', hsel, hget⟩ := set_single hm
  rw [hsp] at hsp'
  cases hsp'
  rw [hget, pyGetAt_three f2 f1 f2 sel q hsel]

theorem c4_witness :
    pySplit "a|b" "|" 2 = .ok ["a", "b"] ∧
    dictGet ((set [⟨PyVal.int 0, ["a|b"]⟩] "|").toOption.getD [])
      ("P" ++ decStr 0 ++ "|" ++ "a|b") = some "b" :=
  ⟨rfl, c4_two_field_reorder.2 (PyVal.int 0) "|" "a|b" "a" "b" _ rfl rfl⟩

/-- C6: the claim that every quantity supporting equality comparison with
the integers 0 and 1 resolves is violated by the float `0.0`: it compares
equal to the integer 0, so `form` keeps the float value, and
`regpl[r][form]` then raises `TypeError`; the call returns no mapping. -/
theorem c6_float_quantity_fails :
    pyEq (PyVal.float 0) (PyVal.int 0) = true ∧
    set [⟨PyVal.float 0, []⟩] "|" = .error .typeError :=
  ⟨rfl, rfl⟩

end Plural

namespace Plural

theorem shortcutPairs_congr (n : String) {f₁ f₂ : PyVal}
    (h : ∀ l, pyGetAt l f₁ = pyGetAt l f₂) (cat : List (String × List String)) :
    shortcutPairs n f₁ cat = shortcutPairs n f₂ cat := by
  induction cat with
  | nil => rfl
  | cons e rest ih =>
    cases e with
    | mk r fs => simp only [shortcutPairs, h fs, ih]

theorem customPairs_congr (sep n : String) {f₁ f₂ : PyVal}
    (h : ∀ l, pyGetAt l f₁ = pyGetAt l f₂) (ps : List String) :
    customPairs sep n f₁ ps = customPairs sep n f₂ ps := by
  induction ps with
  | nil => rfl
  | cons p rest ih => simp only [customPairs, h, ih]

theorem processRequest_bool (sep n : String) (b : Bool) (ps : List String) :
    processRequest sep n ⟨.bool b, ps⟩ = processRequest sep n ⟨.int (if b then 1 else 0), ps⟩ := by
  have h : ∀ l, pyGetAt l (classify (.bool b)) =
      pyGetAt l (classify (.int (if b then 1 else 0))) := by
    intro l; cases b <;> rfl
  simp only [processRequest]
  rw [shortcutPairs_congr n h, customPairs_congr sep n h]

theorem setGo_cons (sep : String) (k : Nat) (req : Request) (rest : List Request) :
    setGo sep k (req :: rest) =
      match processRequest sep (decStr k) req with
      | .error e => .error e
      | .ok pairs =>
        match setGo sep (k + 1) rest with
        | .error e => .error e
        | .ok tail => .ok (pairs ++ tail) := rfl

theorem setGo_congr_at (sep : String) (r1 r2 : Request)
    (h : ∀ n, processRequest sep n r1 = processRequest sep n r2) (pre : List Request) :
    ∀ (k : Nat) (post : List Request),
      setGo sep k (pre ++ r1 :: post) = setGo sep k (pre ++ r2 :: post) := by
  induction pre with
  | nil =>
    intro k post
    rw [List.nil_append, List.nil_append, setGo_cons, setGo_cons, h (decStr k)]
  | cons x pre ih =>
    intro k post
    rw [List.cons_append, List.cons_append, setGo_cons, setGo_cons, ih (k + 1) post]

/-- C1: for every integer quantity `q` the code classifies `q` as category
0 (ZERO) exactly when `q = 0`, as category 1 (SINGULAR) exactly when
`q = 1`, and as category 2 (PLURAL) otherwise — negative integers
included — and the classification alone determines the whole output of the
request: two quantities with the same classification yield identical
shortcut and candidate assignments. -/
theorem c1_classification :
    (∀ q : Int,
      (classify (.int q) = .int 0 ↔ q = 0) ∧
      (classify (.int q) = .int 1 ↔ q = 1) ∧
      ((q ≠ 0 ∧ q ≠ 1) ↔ classify (.int q) = .int 2)) ∧
    (∀ (sep n : String) (ps : List String) (q₁ q₂ : PyVal),
      classify q₁ = classify q₂ →
      processRequest sep n ⟨q₁, ps⟩ = processRequest sep n ⟨q₂, ps⟩) := by
  constructor
  · intro q
    rw [classify_int]
    by_cases h0 : q = 0 <;> by_cases h1 : q = 1 <;> simp [h0, h1]
  · intro sep n ps q₁ q₂ h
    simp only [processRequest, h]

theorem c1_witness :
    classify (PyVal.int 5) = classify (PyVal.int 7) ∧
    processRequest "|" "0" ⟨PyVal.int 5, ["a|b"]⟩ =
      processRequest "|" "0" ⟨PyVal.int 7, ["a|b"]⟩ :=
  ⟨by decide, c1_classification.2 "|" "0" ["a|b"] (PyVal.int 5) (PyVal.int 7) (by decide)⟩

/-- C10: boolean quantities are classified by numeric equality — `False`
behaves exactly like the integer 0 and `True` exactly like the integer 1,
in any request position of any call; in particular `resolve([(True,)])`
maps `"P0s"` to the empty string just as `resolve([(1,)])` does. -/
theorem c10_bool_quantities :
    (∀ (sep n : String) (ps : List String),
      processRequest sep n ⟨.bool false, ps⟩ = processRequest sep n ⟨.int 0, ps⟩) ∧
    (∀ (sep n : String) (ps : List String),
      processRequest sep n ⟨.bool true, ps⟩ = processRequest sep n ⟨.int 1, ps⟩) ∧
    (∀ (sep : String) (pre post : List Request) (b : Bool) (ps : List String),
      set (pre ++ ⟨.bool b, ps⟩ :: post) sep =
        set (pre ++ ⟨.int (if b then 1 else 0), ps⟩ :: post) sep) ∧
    set [⟨.bool true, []⟩] "|" = set [⟨.int 1, []⟩] "|" ∧
    (set [⟨.bool true, []⟩] "|").toOption.bind (fun m => dictGet m "P0s") = some "" := by
  refine ⟨fun sep n ps => processRequest_bool sep n false ps,
          fun sep n ps => processRequest_bool sep n true ps,
          fun sep pre post b ps => ?_, rfl, rfl⟩
  exact setGo_congr_at sep _ _ (fun n => processRequest_bool sep n b ps) pre 0 post

end Plural

namespace Plural

theorem leadsWith_append_self (s t : List Char) : leadsWith s (s ++ t) = true := by
  induction s with
  | nil => rfl
  | cons a s ih => simp [leadsWith, ih]

theorem leadsWith_append_extra (s : List Char) :
    ∀ (u t : List Char), s.length ≤ u.length → leadsWith s (u ++ t) = leadsWith s u := by
  induction s with
  | nil => intro u t _; rfl
  | cons a s ih =>
    intro u t hlen
    cases u with
    | nil => simp at hlen
    | cons b u =>
      simp only [List.cons_append, leadsWith, List.append_eq]
      rw [ih u t (by simpa using hlen)]

theorem findSep_boundary {sep : List Char} (hsep : sep ≠ []) :
    ∀ {z : List Char}, cleanBefore sep z = true →
      ∀ t, findSep sep (z ++ (sep ++ t)) = some (z, t) := by
  intro z
  induction z with
  | nil =>
    intro _ t
    cases sep with
    | nil => exact absurd rfl hsep
    | cons c s' =>
      have htrue : leadsWith (c :: s') (c :: (s' ++ t)) = true := by
        have h := leadsWith_append_self (c :: s') t
        simpa using h
      rw [List.nil_append]
      show findSep (c :: s') (c :: (s' ++ t)) = some ([], t)
      simp [findSep, htrue, List.drop_left]
  | cons c z ih =>
    intro hclean t
    simp only [cleanBefore, Bool.and_eq_true, Bool.not_eq_true'] at hclean
    obtain ⟨hhead, htail⟩ := hclean
    rw [List.cons_append]
    show findSep sep (c :: (z ++ (sep ++ t))) = some (c :: z, t)
    have hz : c :: (z ++ (sep ++ t)) = (c :: (z ++ sep)) ++ t := by
      simp [List.append_assoc]
    have hfalse : leadsWith sep (c :: (z ++ (sep ++ t))) = false := by
      rw [hz, leadsWith_append_extra sep (c :: (z ++ sep)) t (by simp; omega), hhead]
    simp [findSep, hfalse, ih htail t]

theorem splitCapped_boundary {sep : List Char} (hsep : sep ≠ []) {z s : List Char}
    (hz : cleanBefore sep z = true) (hs : cleanBefore sep s = true) (p : List Char) :
    splitCapped sep 2 (z ++ (sep ++ (s ++ (sep ++ p)))) = [z, s, p] := by
  show splitCapped sep 2 (z ++ (sep ++ (s ++ (sep ++ p)))) = [z, s, p]
  simp only [splitCapped, findSep_boundary hsep hz (s ++ (sep ++ p)),
    findSep_boundary hsep hs p]

theorem data_ne_nil {sep : String} (hsep : sep ≠ "") : sep.data ≠ [] := by
  intro h
  exact hsep (String.ext h)

theorem pySplit_boundary {sep z s : String} (hsep : sep ≠ "")
    (hz : cleanBefore sep.data z.data = true) (hs : cleanBefore sep.data s.data = true)
    (p : String) :
    pySplit (z ++ sep ++ s ++ sep ++ p) sep 2 = .ok [z, s, p] := by
  have hdata : (z ++ sep ++ s ++ sep ++ p).data =
      z.data ++ (sep.data ++ (s.data ++ (sep.data ++ p.data))) := by
    simp [String.data_append, List.append_assoc]
  rw [pySplit, if_neg hsep, hdata, splitCapped_boundary (data_ne_nil hsep) hz hs p.data]
  simp [asString_data]

/-- C3 as stated is false: with separator `"aa"` and the separator-free
fields `z = "a"`, `s = "b"`, `p = "c"`, the concatenation is `"aaabaac"`,
whose capped split is `["", "ab", "c"]` because an occurrence of the
separator straddles the boundary between `z` and the first separator; at
quantity 0 the code therefore selects `""`, not `z = "a"`. -/
theorem c3_counterexample :
    containsSeq "aa".data "a".data = false ∧
    containsSeq "aa".data "b".data = false ∧
    containsSeq "aa".data "c".data = false ∧
    ("a" ++ "aa" ++ "b" ++ "aa" ++ "c" : String) = "aaabaac" ∧
    (set [⟨PyVal.int 0, ["aaabaac"]⟩] "aa").toOption.bind
        (fun m => dictGet m ("P" ++ decStr 0 ++ "aa" ++ "aaabaac")) = some "" ∧
    ("" : String) ≠ "a" :=
  ⟨by decide, by decide, by decide, by decide, rfl, by decide⟩

/-- C3 amended: the round trip holds provided no occurrence of the
separator starts inside `z` in `z ++ sep`, nor inside `s` in `s ++ sep`
(`cleanBefore`); this strengthens "z and s contain no occurrence of the
separator" just enough to exclude occurrences straddling a field/separator
boundary, and is automatic e.g. for single-character separators.  `p` is
unconstrained: the split is capped at two, so any separator occurrences in
`p` remain literal content of the third field. -/
theorem c3_round_trip :
    ∀ (q : PyVal) (sep z s p : String) (m : List (String × String)),
      sep ≠ "" →
      cleanBefore sep.data z.data = true →
      cleanBefore sep.data s.data = true →
      set [⟨q, [z ++ sep ++ s ++ sep ++ p]⟩] sep = .ok m →
      dictGet m ("P" ++ decStr 0 ++ sep ++ (z ++ sep ++ s ++ sep ++ p)) =
        some (if pyEq q (.int 0) then z else if pyEq q (.int 1) then s else p) := by
  intro q sep z s p m hsep hz hs hm
  obtain ⟨parts, sel, hsp', hsel, hget⟩ := set_single hm
  rw [pySplit_boundary hsep hz hs p] at hsp'
  cases hsp'
  rw [hget, pyGetAt_three z s p sel q hsel]

theorem c3_witness :
    ("|" : String) ≠ "" ∧
    cleanBefore "|".data "a".data = true ∧
    cleanBefore "|".data "b".data = true ∧
    dictGet ((set [⟨PyVal.int 5, ["a" ++ "|" ++ "b" ++ "|" ++ "c|d"]⟩] "|").toOption.getD [])
      ("P" ++ decStr 0 ++ "|" ++ ("a" ++ "|" ++ "b" ++ "|" ++ "c|d")) = some "c|d" := by
  refine ⟨by decide, by decide, by decide, ?_⟩
  exact c3_round_trip (PyVal.int 5) "|" "a" "b" "c|d" _
    (by decide) (by decide) (by decide) rfl

end Plural

namespace Plural

theorem shortcutPairs_ok_intbool (n : String) {q : PyVal} (hq : intOrBool q = true) :
    ∃ sc, shortcutPairs n (classify q) regpl = .ok sc := by
  cases q with
  | int nn =>
    by_cases h0 : nn = 0
    · subst h0; exact ⟨_, rfl⟩
    · by_cases h1 : nn = 1
      · subst h1; exact ⟨_, rfl⟩
      · rw [classify_int]; simp only [h0, h1, if_false]; exact ⟨_, rfl⟩
  | bool b => cases b <;> exact ⟨_, rfl⟩
  | float f => simp [intOrBool] at hq
  | str s => simp [intOrBool] at hq

theorem setGo_empty_sep_ok :
    ∀ (reqs : List Request), (∀ r ∈ reqs, intOrBool r.quantity = true) →
      (∀ r ∈ reqs, r.strings = []) → ∀ k, ∃ m, setGo "" k reqs = .ok m := by
  intro reqs
  induction reqs with
  | nil => intro _ _ k; exact ⟨[], rfl⟩
  | cons req rest ih =>
    intro hqs hstr k
    obtain ⟨sc, hsc⟩ := shortcutPairs_ok_intbool (decStr k) (hqs req (by simp))
    obtain ⟨mt, hmt⟩ :=
      ih (fun r hr => hqs r (by simp [hr])) (fun r hr => hstr r (by simp [hr])) (k + 1)
    have hstr0 : req.strings = [] := hstr req (by simp)
    have hpr : processRequest "" (decStr k) req = .ok (sc ++ []) := by
      simp [processRequest, hsc, hstr0, customPairs]
    exact ⟨(sc ++ []) ++ mt, by rw [setGo_cons]; simp [hpr, hmt]⟩

theorem setGo_empty_sep_error :
    ∀ (reqs : List Request), (∀ r ∈ reqs, intOrBool r.quantity = true) →
      (∃ r ∈ reqs, r.strings ≠ []) → ∀ k, setGo "" k reqs = .error .valueError := by
  intro reqs
  induction reqs with
  | nil => intro _ hstr k; simp at hstr
  | cons req rest ih =>
    intro hqs hstr k
    obtain ⟨sc, hsc⟩ := shortcutPairs_ok_intbool (decStr k) (hqs req (by simp))
    rw [setGo_cons]
    by_cases h0 : req.strings = []
    · have hrest : ∃ r ∈ rest, r.strings ≠ [] := by
        obtain ⟨r, hr, hne⟩ := hstr
        rcases List.mem_cons.mp hr with heq | hr'
        · exact absurd (heq ▸ h0) hne
        · exact ⟨r, hr', hne⟩
      have hpr : processRequest "" (decStr k) req = .ok (sc ++ []) := by
        simp [processRequest, hsc, h0, customPairs]
      simp [hpr, ih (fun r hr => hqs r (by simp [hr])) hrest (k + 1)]
    · obtain ⟨p, ps, hps⟩ : ∃ p ps, req.strings = p :: ps := by
        cases hh : req.strings with
        | nil => exact absurd hh h0
        | cons a b => exact ⟨a, b, rfl⟩
      have hpr : processRequest "" (decStr k) req = .error .valueError := by
        simp [processRequest, hsc, hps, customPairs, pySplit]
      simp [hpr]

/-- C7 as stated is false: a call with an empty separator whose requests
carry no candidate strings does not fail — it returns the full shortcut
mapping.  The failure, when it happens, comes from `str.split` itself at
the first candidate string, not from an up-front configuration check. -/
theorem c7_counterexample :
    ∃ m, set [⟨PyVal.int 2, []⟩] "" = .ok m ∧ dictGet m "P0s" = some "s" :=
  ⟨_, rfl, rfl⟩

/-- C7 amended: with an empty separator (and quantities that resolve, i.e.
integers or booleans), `set` returns a mapping when no request carries a
candidate string, and raises `ValueError` from the first attempted split
when some request does carry one; only in the latter case is no mapping
returned. -/
theorem c7_empty_separator :
    ∀ reqs : List Request, (∀ r ∈ reqs, intOrBool r.quantity = true) →
      ((∀ r ∈ reqs, r.strings = []) → ∃ m, set reqs "" = .ok m) ∧
      ((∃ r ∈ reqs, r.strings ≠ []) → set reqs "" = .error .valueError) := by
  intro reqs hqs
  exact ⟨fun h => setGo_empty_sep_ok reqs hqs h 0,
         fun h => setGo_empty_sep_error reqs hqs h 0⟩

theorem c7_witness :
    set [⟨PyVal.int 2, ["x"]⟩] "" = .error .valueError :=
  (c7_empty_separator [⟨PyVal.int 2, ["x"]⟩] (by decide)).2
    ⟨⟨PyVal.int 2, ["x"]⟩, by simp, by simp⟩

end Plural

namespace Plural

/-- C8: the shortcut listing produces one `(name, zero, singular, plural)`
row per catalog entry plus one derived uppercase row — a finite (hence
restartable) sequence covering the whole catalog; being a pure function of
the read-only catalog, producing it has no effect on later resolution. -/
theorem c8_shortcut_listing :
    shortcuts.length = 2 * regpl.length ∧
    (∀ (r : String) (fs : List String), (r, fs) ∈ regpl →
      (r, fs.getD 0 "", fs.getD 1 "", fs.getD 2 "") ∈ shortcuts ∧
      (upStr r, upStr (fs.getD 0 ""), upStr (fs.getD 1 ""), upStr (fs.getD 2 "")) ∈
        shortcuts) := by
  refine ⟨rfl, ?_⟩
  intro r fs h
  fin_cases h <;> exact ⟨by decide, by decide⟩

theorem c8_witness :
    ("y", ["ies", "y", "ies"]) ∈ regpl ∧
    ("y", "ies", "y", "ies") ∈ shortcuts ∧
    ("Y", "IES", "Y", "IES") ∈ shortcuts :=
  ⟨by decide, (c8_shortcut_listing.2 "y" ["ies", "y", "ies"] (by decide)).1,
    (c8_shortcut_listing.2 "y" ["ies", "y", "ies"] (by decide)).2⟩

theorem valOf_append (l : List Char) (c : Char) :
    valOf (l ++ [c]) = 10 * valOf l + digitVal c := by
  simp [valOf, List.foldl_append]

theorem digitVal_digitChar {d : Nat} (hd : d < 10) : digitVal (digitChar d) = d := by
  interval_cases d <;> decide

theorem digitChar_isDigit {d : Nat} (hd : d < 10) : (digitChar d).isDigit = true := by
  interval_cases d <;> decide

theorem decAux_val : ∀ (fuel n : Nat), n ≤ fuel → valOf (decAux fuel n) = n := by
  intro fuel
  induction fuel with
  | zero => intro n hn; interval_cases n; rfl
  | succ fuel ih =>
    intro n hn
    by_cases h0 : n = 0
    · subst h0; simp [decAux, valOf]
    · have hdiv : n / 10 ≤ fuel := by
        have hlt : n / 10 < n := Nat.div_lt_self (Nat.pos_of_ne_zero h0) (by omega)
        omega
      simp only [decAux, h0, if_false]
      rw [valOf_append, ih (n / 10) hdiv, digitVal_digitChar (Nat.mod_lt n (by omega))]
      omega

theorem decStr_val (n : Nat) : valOf (decStr n).data = n := by
  by_cases h0 : n = 0
  · subst h0; decide
  · show valOf (decStr n).data = n
    rw [decStr, if_neg h0]
    exact decAux_val n n le_rfl

theorem decStr_inj {m n : Nat} (h : decStr m = decStr n) : m = n := by
  rw [← decStr_val m, ← decStr_val n, h]

theorem decAux_digits : ∀ (fuel n : Nat), ∀ c ∈ decAux fuel n, c.isDigit = true := by
  intro fuel
  induction fuel with
  | zero => intro n c hc; simp [decAux] at hc
  | succ fuel ih =>
    intro n c hc
    by_cases h0 : n = 0
    · subst h0; simp [decAux] at hc
    · simp only [decAux, h0, if_false, List.mem_append, List.mem_singleton] at hc
      rcases hc with hc | hc
      · exact ih (n / 10) c hc
      · subst hc; exact digitChar_isDigit (Nat.mod_lt n (by omega))

theorem decStr_digits (n : Nat) : ∀ c ∈ (decStr n).data, c.isDigit = true := by
  by_cases h0 : n = 0
  · subst h0; decide
  · rw [decStr, if_neg h0]
    exact decAux_digits n n

theorem digits_head_split :
    ∀ (d₁ d₂ : List Char) (c₁ : Char) (t₁ : List Char) (c₂ : Char) (t₂ : List Char),
      (∀ c ∈ d₁, c.isDigit = true) → (∀ c ∈ d₂, c.isDigit = true) →
      c₁.isDigit = false → c₂.isDigit = false →
      d₁ ++ c₁ :: t₁ = d₂ ++ c₂ :: t₂ → d₁ = d₂ ∧ c₁ :: t₁ = c₂ :: t₂ := by
  intro d₁
  induction d₁ with
  | nil =>
    intro d₂ c₁ t₁ c₂ t₂ _ hd₂ hc₁ hc₂ heq
    cases d₂ with
    | nil => exact ⟨rfl, heq⟩
    | cons d d₂ =>
      rw [List.nil_append, List.cons_append] at heq
      have : c₁ = d := (List.cons.injEq _ _ _ _ ▸ heq).1
      rw [this] at hc₁
      rw [hd₂ d (by simp)] at hc₁
      cases hc₁
  | cons d d₁ ih =>
    intro d₂ c₁ t₁ c₂ t₂ hd₁ hd₂ hc₁ hc₂ heq
    cases d₂ with
    | nil =>
      rw [List.cons_append, List.nil_append] at heq
      have : d = c₂ := (List.cons.injEq _ _ _ _ ▸ heq).1
      rw [← this] at hc₂
      rw [hd₁ d (by simp)] at hc₂
      cases hc₂
    | cons e d₂ =>
      rw [List.cons_append, List.cons_append] at heq
      have hde : d = e := (List.cons.injEq _ _ _ _ ▸ heq).1
      have htl : d₁ ++ c₁ :: t₁ = d₂ ++ c₂ :: t₂ := (List.cons.injEq _ _ _ _ ▸ heq).2
      obtain ⟨h1, h2⟩ := ih d₂ c₁ t₁ c₂ t₂ (fun c hc => hd₁ c (by simp [hc]))
        (fun c hc => hd₂ c (by simp [hc])) hc₁ hc₂ htl
      exact ⟨by rw [hde, h1], h2⟩

theorem pkey_inj {i j : Nat} {w₁ w₂ : String}
    (hw₁ : nonDigitHead w₁ = true) (hw₂ : nonDigitHead w₂ = true)
    (h : "P" ++ decStr i ++ w₁ = "P" ++ decStr j ++ w₂) : i = j ∧ w₁ = w₂ := by
  obtain ⟨c₁, t₁, hw₁d, hc₁⟩ :
      ∃ c t, w₁.data = c :: t ∧ c.isDigit = false := by
    unfold nonDigitHead at hw₁
    cases hwd : w₁.data with
    | nil => rw [hwd] at hw₁; cases hw₁
    | cons c t => rw [hwd] at hw₁; exact ⟨c, t, rfl, by simpa using hw₁⟩
  obtain ⟨c₂, t₂, hw₂d, hc₂⟩ :
      ∃ c t, w₂.data = c :: t ∧ c.isDigit = false := by
    unfold nonDigitHead at hw₂
    cases hwd : w₂.data with
    | nil => rw [hwd] at hw₂; cases hw₂
    | cons c t => rw [hwd] at hw₂; exact ⟨c, t, rfl, by simpa using hw₂⟩
  have hd := congrArg String.data h
  rw [String.data_append, String.data_append, String.data_append, String.data_append,
    hw₁d, hw₂d] at hd
  have hP : "P".data = ['P'] := rfl
  rw [hP, List.append_assoc, List.append_assoc] at hd
  have hd' : (decStr i).data ++ c₁ :: t₁ = (decStr j).data ++ c₂ :: t₂ := by
    have := (List.cons.injEq _ _ _ _ ▸ hd).2
    simpa using this
  obtain ⟨h1, h2⟩ := digits_head_split (decStr i).data (decStr j).data c₁ t₁ c₂ t₂
    (decStr_digits i) (decStr_digits j) hc₁ hc₂ hd'
  refine ⟨decStr_inj (String.ext h1), String.ext ?_⟩
  rw [hw₁d, hw₂d, h2]

theorem pkey_neq_idx {i j : Nat} {w₁ w₂ : String}
    (hw₁ : nonDigitHead w₁ = true) (hw₂ : nonDigitHead w₂ = true) (hij : i ≠ j) :
    "P" ++ decStr i ++ w₁ ≠ "P" ++ decStr j ++ w₂ :=
  fun h => hij (pkey_inj hw₁ hw₂ h).1

theorem pkey_neq_word {i j : Nat} {w₁ w₂ : String}
    (hw₁ : nonDigitHead w₁ = true) (hw₂ : nonDigitHead w₂ = true) (hw : w₁ ≠ w₂) :
    "P" ++ decStr i ++ w₁ ≠ "P" ++ decStr j ++ w₂ :=
  fun h => hw (pkey_inj hw₁ hw₂ h).2

end Plural

namespace Plural

theorem regpl_len3 : ∀ e ∈ regpl, e.2.length = 3 := by decide

theorem regpl_nonDigit : ∀ e ∈ regpl, nonDigitHead e.1 = true ∧ nonDigitHead (upStr e.1) = true := by
  decide

theorem regpl_names_nodup : regpl.Pairwise (fun a b => a.1 ≠ b.1) := by decide

theorem regpl_upper_nodup : regpl.Pairwise (fun a b => upStr a.1 ≠ upStr b.1) := by decide

theorem regpl_upper_ne_lower : ∀ e ∈ regpl, ∀ e' ∈ regpl, upStr e.1 ≠ e'.1 := by decide

theorem pyTupleGet_uniform {fs : List String} {i : Int} {x : String}
    (hlen : fs.length = 3) (h : pyTupleGet fs i = .ok x) :
    ∃ k : Nat, k < 3 ∧ fs.get? k = some x ∧
      ∀ fs' : List String, fs'.length = 3 →
        ∀ y, fs'.get? k = some y → pyTupleGet fs' i = .ok y := by
  unfold pyTupleGet at h
  rw [hlen] at h
  by_cases hneg : (if i < 0 then i + (3 : Nat) else i) < 0
  · rw [if_pos hneg] at h; cases h
  · rw [if_neg hneg] at h
    cases hg : fs.get? (if i < 0 then i + (3 : Nat) else i).toNat with
    | none => rw [hg] at h; cases h
    | some x' =>
      rw [hg] at h
      cases h
      have hk3 : (if i < 0 then i + (3 : Nat) else i).toNat < 3 := by
        obtain ⟨hlt, _⟩ := List.get?_eq_some.mp hg
        omega
      refine ⟨(if i < 0 then i + (3 : Nat) else i).toNat, hk3, hg, ?_⟩
      intro fs' hlen' y hy
      unfold pyTupleGet
      rw [hlen', if_neg hneg, hy]

theorem pyGetAt_uniform {fs : List String} {v : PyVal} {x : String}
    (hlen : fs.length = 3) (h : pyGetAt fs v = .ok x) :
    ∃ k : Nat, k < 3 ∧ fs.get? k = some x ∧
      ∀ fs' : List String, fs'.length = 3 →
        ∀ y, fs'.get? k = some y → pyGetAt fs' v = .ok y := by
  unfold pyGetAt at h
  cases hi : pyIndexVal v with
  | error e => rw [hi] at h; cases h
  | ok i =>
    rw [hi] at h
    obtain ⟨k, hk3, hget, huni⟩ := pyTupleGet_uniform hlen h
    refine ⟨k, hk3, hget, ?_⟩
    intro fs' hlen' y hy
    unfold pyGetAt
    rw [hi]
    exact huni fs' hlen' y hy

theorem getD_of_get? {l : List String} {k : Nat} {y : String} (h : l.get? k = some y) :
    l.getD k "" = y := by
  rw [List.getD_eq_getElem?_getD, ← List.get?_eq_getElem?, h]; rfl

theorem shortcutPairs_eq_scList (n : String) {form : PyVal} {k : Nat}
    (hk : ∀ fs' : List String, fs'.length = 3 →
      ∀ y, fs'.get? k = some y → pyGetAt fs' form = .ok y)
    (hk3 : k < 3) :
    ∀ cat : List (String × List String), (∀ e ∈ cat, e.2.length = 3) →
      shortcutPairs n form cat = .ok (scList n k cat) := by
  intro cat
  induction cat with
  | nil => intro _; rfl
  | cons e rest ih =>
    intro hcat
    cases e with
    | mk r fs =>
      have hflen : fs.length = 3 := hcat (r, fs) (by simp)
      obtain ⟨y, hy⟩ : ∃ y, fs.get? k = some y := by
        cases hg : fs.get? k with
        | none => rw [List.get?_eq_none] at hg; omega
        | some y => exact ⟨y, rfl⟩
      have hok : pyGetAt fs form = .ok y := hk fs hflen y hy
      have htail : shortcutPairs n form rest = .ok (scList n k rest) :=
        ih (fun e he => hcat e (by simp [he]))
      simp only [shortcutPairs, hok, htail, scList, getD_of_get? hy]

theorem scList_keys (n : String) (k : Nat) :
    ∀ (cat : List (String × List String)) (kv : String × String), kv ∈ scList n k cat →
      ∃ e ∈ cat, kv.1 = "P" ++ n ++ e.1 ∨ kv.1 = "P" ++ n ++ upStr e.1 := by
  intro cat
  induction cat with
  | nil => intro kv hkv; simp [scList] at hkv
  | cons e rest ih =>
    intro kv hkv
    cases e with
    | mk r fs =>
      simp only [scList, List.mem_cons] at hkv
      rcases hkv with rfl | rfl | hkv
      · exact ⟨(r, fs), by simp, Or.inl rfl⟩
      · exact ⟨(r, fs), by simp, Or.inr rfl⟩
      · obtain ⟨e, he, hform⟩ := ih kv hkv
        exact ⟨e, by simp [he], hform⟩

theorem dictGet_scList_lower (n : String) (k : Nat) {r : String} {fs : List String} :
    ∀ (cat : List (String × List String)), (r, fs) ∈ cat →
      cat.Pairwise (fun a b => a.1 ≠ b.1) →
      (∀ e ∈ cat, ∀ e' ∈ cat, upStr e.1 ≠ e'.1) →
      dictGet (scList n k cat) ("P" ++ n ++ r) = some (fs.getD k "") := by
  intro cat
  induction cat with
  | nil => intro hmem; simp at hmem
  | cons e₀ rest ih =>
    intro hmem hnd hul
    cases e₀ with
    | mk r₀ fs₀ =>
      rcases List.mem_cons.mp hmem with heq | hmem'
      · cases heq
        have hnone : dictGet (scList n k rest) ("P" ++ n ++ r) = none := by
          apply dictGet_eq_none
          intro kv hkv
          obtain ⟨e, he, hform⟩ := scList_keys n k rest kv hkv
          have hne : e.1 ≠ r := fun hc =>
            (List.pairwise_cons.mp hnd).1 e he hc.symm
          rcases hform with hf | hf
          · rw [hf]; exact fun hc => hne ((str_append_right_inj _ _ _).mp hc)
          · rw [hf]
            intro hc
            exact hul e (by simp [he]) (r, fs) (by simp)
              ((str_append_right_inj _ _ _).mp hc)
        rw [scList, dictGet_cons, dictGet_cons, hnone]
        have hup : ¬("P" ++ n ++ upStr r = "P" ++ n ++ r) := by
          intro hc
          exact hul (r, fs) (by simp) (r, fs) (by simp)
            ((str_append_right_inj _ _ _).mp hc)
        simp [hup]
      · have htail := ih hmem' (List.pairwise_cons.mp hnd).2
          (fun e he e' he' => hul e (by simp [he]) e' (by simp [he']))
        rw [scList, dictGet_cons, dictGet_cons, htail]

theorem dictGet_scList_upper (n : String) (k : Nat) {r : String} {fs : List String} :
    ∀ (cat : List (String × List String)), (r, fs) ∈ cat →
      cat.Pairwise (fun a b => upStr a.1 ≠ upStr b.1) →
      (∀ e ∈ cat, ∀ e' ∈ cat, upStr e.1 ≠ e'.1) →
      dictGet (scList n k cat) ("P" ++ n ++ upStr r) = some (upStr (fs.getD k "")) := by
  intro cat
  induction cat with
  | nil => intro hmem; simp at hmem
  | cons e₀ rest ih =>
    intro hmem hnd hul
    cases e₀ with
    | mk r₀ fs₀ =>
      rcases List.mem_cons.mp hmem with heq | hmem'
      · cases heq
        have hnone : dictGet (scList n k rest) ("P" ++ n ++ upStr r) = none := by
          apply dictGet_eq_none
          intro kv hkv
          obtain ⟨e, he, hform⟩ := scList_keys n k rest kv hkv
          rcases hform with hf | hf
          · rw [hf]
            intro hc
            exact hul (r, fs) (by simp) e (by simp [he])
              ((str_append_right_inj _ _ _).mp hc).symm
          · rw [hf]
            intro hc
            exact (List.pairwise_cons.mp hnd).1 e he
              ((str_append_right_inj _ _ _).mp hc).symm
        rw [scList, dictGet_cons, dictGet_cons, hnone]
        simp
      · have htail := ih hmem' (List.pairwise_cons.mp hnd).2
          (fun e he e' he' => hul e (by simp [he]) e' (by simp [he']))
        rw [scList, dictGet_cons, dictGet_cons, htail]

end Plural

namespace Plural

theorem customPairs_ok_keys (sep n : String) (form : PyVal) :
    ∀ (ps : List String) (cs : List (String × String)),
      customPairs sep n form ps = .ok cs →
      ∀ kv ∈ cs, ∃ p ∈ ps, kv.1 = "P" ++ n ++ sep ++ p := by
  intro ps
  induction ps with
  | nil =>
    intro cs hcs kv hkv
    cases hcs
    simp at hkv
  | cons p rest ih =>
    intro cs hcs kv hkv
    cases hsp : pySplit p sep 2 with
    | error e => simp [customPairs, hsp] at hcs
    | ok parts =>
      cases hsel : pyGetAt (reorderFields parts) form with
      | error e => simp [customPairs, hsp, hsel] at hcs
      | ok sel =>
        cases htail : customPairs sep n form rest with
        | error e => simp [customPairs, hsp, hsel, htail] at hcs
        | ok tail =>
          simp only [customPairs, hsp, hsel, htail, Except.ok.injEq] at hcs
          subst hcs
          rcases List.mem_cons.mp hkv with rfl | hkv'
          · exact ⟨p, by simp, rfl⟩
          · obtain ⟨p', hp', hform⟩ := ih tail htail kv hkv'
            exact ⟨p', by simp [hp'], hform⟩

theorem shortcutPairs_ok_keys (n : String) (form : PyVal) :
    ∀ (cat : List (String × List String)) (sc : List (String × String)),
      shortcutPairs n form cat = .ok sc →
      ∀ kv ∈ sc, ∃ e ∈ cat, kv.1 = "P" ++ n ++ e.1 ∨ kv.1 = "P" ++ n ++ upStr e.1 := by
  intro cat
  induction cat with
  | nil =>
    intro sc hsc kv hkv
    cases hsc
    simp at hkv
  | cons e rest ih =>
    intro sc hsc kv hkv
    cases e with
    | mk r fs =>
      unfold shortcutPairs at hsc
      cases hval : pyGetAt fs form with
      | error e' => rw [hval] at hsc; cases hsc
      | ok val =>
        rw [hval] at hsc
        cases htail : shortcutPairs n form rest with
        | error e' => rw [htail] at hsc; cases hsc
        | ok tail =>
          rw [htail] at hsc
          cases hsc
          rcases List.mem_cons.mp hkv with rfl | hkv'
          · exact ⟨(r, fs), by simp, Or.inl rfl⟩
          · rcases List.mem_cons.mp hkv' with rfl | hkv''
            · exact ⟨(r, fs), by simp, Or.inr rfl⟩
            · obtain ⟨e, he, hform⟩ := ih tail htail kv hkv''
              exact ⟨e, by simp [he], hform⟩

theorem processRequest_ok_parts {sep n : String} {req : Request}
    {pr : List (String × String)} (h : processRequest sep n req = .ok pr) :
    ∃ sc cust, shortcutPairs n (classify req.quantity) regpl = .ok sc ∧
      customPairs sep n (classify req.quantity) req.strings = .ok cust ∧
      pr = sc ++ cust := by
  cases hsc : shortcutPairs n (classify req.quantity) regpl with
  | error e => simp [processRequest, hsc] at h
  | ok sc =>
    cases hcust : customPairs sep n (classify req.quantity) req.strings with
    | error e => simp [processRequest, hsc, hcust] at h
    | ok cust =>
      simp only [processRequest, hsc, hcust, Except.ok.injEq] at h
      exact ⟨sc, cust, rfl, rfl, h.symm⟩

theorem setGo_ok_keys {sep : String} :
    ∀ (reqs : List Request) (k : Nat) (m : List (String × String)),
      setGo sep k reqs = .ok m →
      ∀ kv ∈ m, ∃ j req', reqs.get? j = some req' ∧
        ((∃ e ∈ regpl, kv.1 = "P" ++ decStr (k + j) ++ e.1 ∨
            kv.1 = "P" ++ decStr (k + j) ++ upStr e.1) ∨
          ∃ p ∈ req'.strings, kv.1 = "P" ++ decStr (k + j) ++ sep ++ p) := by
  intro reqs
  induction reqs with
  | nil =>
    intro k m hm kv hkv
    cases hm
    simp at hkv
  | cons req rest ih =>
    intro k m hm kv hkv
    rw [setGo_cons] at hm
    cases hpr : processRequest sep (decStr k) req with
    | error e => rw [hpr] at hm; cases hm
    | ok pairs =>
      rw [hpr] at hm
      cases htail : setGo sep (k + 1) rest with
      | error e => rw [htail] at hm; cases hm
      | ok tail =>
        rw [htail] at hm
        cases hm
        rcases List.mem_append.mp hkv with hin | hin
        · obtain ⟨sc, cust, hsc, hcust, hpairs⟩ := processRequest_ok_parts hpr
          subst hpairs
          refine ⟨0, req, rfl, ?_⟩
          rw [Nat.add_zero]
          rcases List.mem_append.mp hin with hin' | hin'
          · exact Or.inl (shortcutPairs_ok_keys (decStr k) _ regpl sc hsc kv hin')
          · exact Or.inr (customPairs_ok_keys sep (decStr k) _ req.strings cust hcust kv hin')
        · obtain ⟨j, req', hget, hform⟩ := ih (k + 1) tail htail kv hin
          refine ⟨j + 1, req', by simpa using hget, ?_⟩
          have harith : k + (j + 1) = k + 1 + j := by omega
          rw [harith]
          exact hform

theorem setGo_lookup {sep : String} :
    ∀ (reqs : List Request) (k : Nat) (m : List (String × String)) (i : Nat)
      (req : Request) (w : String) (outv : String),
      setGo sep k reqs = .ok m →
      reqs.get? i = some req →
      nonDigitHead w = true →
      (∀ sc, shortcutPairs (decStr (k + i)) (classify req.quantity) regpl = .ok sc →
        dictGet sc ("P" ++ decStr (k + i) ++ w) = some outv) →
      (∀ j reqj p, reqs.get? j = some reqj → p ∈ reqj.strings →
        "P" ++ decStr (k + j) ++ sep ++ p ≠ "P" ++ decStr (k + i) ++ w) →
      dictGet m ("P" ++ decStr (k + i) ++ w) = some outv := by
  intro reqs
  induction reqs with
  | nil => intro k m i req w outv _ hget; cases hget
  | cons req₀ rest ih =>
    intro k m i req w outv hm hget hw hseg hcust
    rw [setGo_cons] at hm
    cases hpr : processRequest sep (decStr k) req₀ with
    | error e => rw [hpr] at hm; cases hm
    | ok pairs =>
      rw [hpr] at hm
      cases htail : setGo sep (k + 1) rest with
      | error e => rw [htail] at hm; cases hm
      | ok tail =>
        rw [htail] at hm
        cases hm
        cases i with
        | zero =>
          have hreq : req₀ = req := by simpa using hget
          subst hreq
          have htailnone : dictGet tail ("P" ++ decStr (k + 0) ++ w) = none := by
            apply dictGet_eq_none
            intro kv hkv
            obtain ⟨j, req', hget', hform⟩ := setGo_ok_keys rest (k + 1) tail htail kv hkv
            rcases hform with ⟨e, he, hf⟩ | ⟨p, hp, hf⟩
            · have hnd := regpl_nonDigit e he
              rcases hf with hf | hf <;> rw [hf]
              · exact pkey_neq_idx hnd.1 hw (by omega)
              · exact pkey_neq_idx hnd.2 hw (by omega)
            · rw [hf]
              have harith : k + 1 + j = k + (j + 1) := by omega
              rw [harith]
              exact hcust (j + 1) req' p (by simpa using hget') hp
          rw [dictGet_append_of_none pairs htailnone]
          obtain ⟨sc, cust, hsc, hcust', hpairs⟩ := processRequest_ok_parts hpr
          subst hpairs
          have hcustnone : dictGet cust ("P" ++ decStr (k + 0) ++ w) = none := by
            apply dictGet_eq_none
            intro kv hkv
            obtain ⟨p, hp, hf⟩ :=
              customPairs_ok_keys sep (decStr k) _ req₀.strings cust hcust' kv hkv
            rw [hf]
            have harith : k = k + (0 : Nat) := by omega
            rw [harith]
            exact hcust 0 req₀ p rfl hp
          rw [dictGet_append_of_none sc hcustnone]
          apply hseg
          rw [Nat.add_zero]
          exact hsc
        | succ i' =>
          have hget' : rest.get? i' = some req := by simpa using hget
          have harith : k + (i' + 1) = k + 1 + i' := by omega
          rw [harith]
          have htailsome := ih (k + 1) tail i' req w outv htail hget' hw
            (by rw [← harith]; exact hseg)
            (by
              intro j reqj p hj hp
              have harith2 : k + 1 + j = k + (j + 1) := by omega
              rw [harith2, ← harith]
              exact hcust (j + 1) reqj p (by simpa using hj) hp)
          exact dictGet_append_of_some pairs htailsome

end Plural

namespace Plural

theorem set_shortcut_lookup (reqs : List Request) (sep : String)
    (m : List (String × String)) (i : Nat) (req : Request) (r : String)
    (fs : List String) (val : String)
    (hm : set reqs sep = .ok m)
    (hget : reqs.get? i = some req)
    (hmem : (r, fs) ∈ regpl)
    (hval : pyGetAt fs (classify req.quantity) = .ok val)
    (hcust : ∀ j reqj p, reqs.get? j = some reqj → p ∈ reqj.strings →
      "P" ++ decStr j ++ sep ++ p ≠ "P" ++ decStr i ++ r ∧
      "P" ++ decStr j ++ sep ++ p ≠ "P" ++ decStr i ++ upStr r) :
    dictGet m ("P" ++ decStr i ++ r) = some val ∧
    dictGet m ("P" ++ decStr i ++ upStr r) = some (upStr val) := by
  have hflen : fs.length = 3 := regpl_len3 (r, fs) hmem
  obtain ⟨k, hk3, hgetk, huni⟩ := pyGetAt_uniform hflen hval
  have hsceq : ∀ n, shortcutPairs n (classify req.quantity) regpl = .ok (scList n k regpl) :=
    fun n => shortcutPairs_eq_scList n huni hk3 regpl regpl_len3
  have hvald : fs.getD k "" = val := getD_of_get? hgetk
  have hnd := regpl_nonDigit (r, fs) hmem
  constructor
  · have hlow := setGo_lookup reqs 0 m i req r val hm hget hnd.1
      (by
        intro sc hsc
        rw [hsceq (decStr (0 + i))] at hsc
        cases hsc
        rw [dictGet_scList_lower (decStr (0 + i)) k regpl hmem regpl_names_nodup
          regpl_upper_ne_lower, hvald])
      (by
        intro j reqj p hj hp
        simpa using (hcust j reqj p hj hp).1)
    simpa using hlow
  · have hup := setGo_lookup reqs 0 m i req (upStr r) (upStr val) hm hget hnd.2
      (by
        intro sc hsc
        rw [hsceq (decStr (0 + i))] at hsc
        cases hsc
        rw [dictGet_scList_upper (decStr (0 + i)) k regpl hmem regpl_upper_nodup
          regpl_upper_ne_lower, hvald])
      (by
        intro j reqj p hj hp
        simpa using (hcust j reqj p hj hp).2)
    simpa using hup

/-- C5 as stated is false: shortcut keys can be overwritten by a custom
key that happens to coincide textually.  With separator `"s"` and the
empty candidate string, the custom key `'P0' + 's' + ''` equals the
shortcut key `"P0s"`, so `resolve([(2, '')], sep='s')` maps `"P0s"` to
`""` although the plural form of the `'s'` entry is `"s"`. -/
theorem c5_counterexample :
    (set [⟨PyVal.int 2, [""]⟩] "s").toOption.bind (fun m => dictGet m "P0s") = some "" ∧
    pyGetAt ["s", "", "s"] (classify (PyVal.int 2)) = .ok "s" ∧
    ("" : String) ≠ "s" :=
  ⟨rfl, rfl, by decide⟩

/-- C5 amended: for every request at index `i` (with or without candidate
strings) whose category indexes the catalog entry `(r, fs)` to the value
`val`, the returned mapping carries the shortcut keys `P{i}{r}` and
`P{i}{R}` with values `val` and `upper(val)`, provided no candidate string
of any request produces a custom key textually equal to those shortcut
keys; in particular `resolve([(2,)])` maps `"P0s"` to `"s"` and `"P0S"`
to `"S"`, and `resolve([(1,)])` maps `"P0s"` to `""` and `"P0y"` to
`"y"`. -/
theorem c5_shortcut_keys :
    (∀ (reqs : List Request) (sep : String) (m : List (String × String)) (i : Nat)
       (req : Request) (r : String) (fs : List String) (val : String),
      set reqs sep = .ok m →
      reqs.get? i = some req →
      (r, fs) ∈ regpl →
      pyGetAt fs (classify req.quantity) = .ok val →
      (∀ j reqj p, reqs.get? j = some reqj → p ∈ reqj.strings →
        "P" ++ decStr j ++ sep ++ p ≠ "P" ++ decStr i ++ r ∧
        "P" ++ decStr j ++ sep ++ p ≠ "P" ++ decStr i ++ upStr r) →
      dictGet m ("P" ++ decStr i ++ r) = some val ∧
      dictGet m ("P" ++ decStr i ++ upStr r) = some (upStr val)) ∧
    (set [⟨.int 2, []⟩] "|").toOption.bind (fun m => dictGet m "P0s") = some "s" ∧
    (set [⟨.int 2, []⟩] "|").toOption.bind (fun m => dictGet m "P0S") = some "S" ∧
    (set [⟨.int 1, []⟩] "|").toOption.bind (fun m => dictGet m "P0s") = some "" ∧
    (set [⟨.int 1, []⟩] "|").toOption.bind (fun m => dictGet m "P0y") = some "y" :=
  ⟨set_shortcut_lookup, rfl, rfl, rfl, rfl⟩

theorem c5_witness :
    dictGet ((set [⟨PyVal.int 2, []⟩] "|").toOption.getD [])
      ("P" ++ decStr 0 ++ "s") = some "s" :=
  (c5_shortcut_keys.1 [⟨PyVal.int 2, []⟩] "|"
    ((set [⟨PyVal.int 2, []⟩] "|").toOption.getD []) 0 ⟨PyVal.int 2, []⟩
    "s" ["s", "", "s"] "s" rfl rfl (by decide) rfl
    (by
      intro j reqj p hj hp
      cases j with
      | zero => simp at hj; subst hj; simp at hp
      | succ j' => simp at hj)).1

/-- C9 as stated is false: a colliding custom key can overwrite one of the
two paired shortcut keys.  With separator `"S"` and the empty candidate
string, `resolve([(2, '')], sep='S')` maps `"P0S"` to `""` while `"P0s"`
still maps to `"s"`, breaking the uppercase homomorphism. -/
theorem c9_counterexample :
    (set [⟨PyVal.int 2, [""]⟩] "S").toOption.bind (fun m => dictGet m "P0S") = some "" ∧
    (set [⟨PyVal.int 2, [""]⟩] "S").toOption.bind (fun m => dictGet m "P0s") = some "s" ∧
    (some "" : Option String) ≠ (some "s").map upStr :=
  ⟨rfl, rfl, by decide⟩

/-- C9 amended: for every request index `i`, catalog name `r` and
quantity whose category selects a value from the entry, the value under
the uppercase-named key is exactly the uppercase of the value under the
lowercase-named key, provided no candidate string of any request produces
a custom key textually equal to either of the two shortcut keys. -/
theorem c9_uppercase_link :
    ∀ (reqs : List Request) (sep : String) (m : List (String × String)) (i : Nat)
      (req : Request) (r : String) (fs : List String) (val : String),
      set reqs sep = .ok m →
      reqs.get? i = some req →
      (r, fs) ∈ regpl →
      pyGetAt fs (classify req.quantity) = .ok val →
      (∀ j reqj p, reqs.get? j = some reqj → p ∈ reqj.strings →
        "P" ++ decStr j ++ sep ++ p ≠ "P" ++ decStr i ++ r ∧
        "P" ++ decStr j ++ sep ++ p ≠ "P" ++ decStr i ++ upStr r) →
      dictGet m ("P" ++ decStr i ++ upStr r) =
        (dictGet m ("P" ++ decStr i ++ r)).map upStr := by
  intro reqs sep m i req r fs val hm hget hmem hval hcust
  obtain ⟨hlow, hup⟩ := set_shortcut_lookup reqs sep m i req r fs val hm hget hmem hval hcust
  rw [hlow, hup, Option.map_some']

theorem c9_witness :
    dictGet ((set [⟨PyVal.int 2, []⟩] "|").toOption.getD [])
        ("P" ++ decStr 0 ++ upStr "s") =
      (dictGet ((set [⟨PyVal.int 2, []⟩] "|").toOption.getD [])
        ("P" ++ decStr 0 ++ "s")).map upStr :=
  c9_uppercase_link [⟨PyVal.int 2, []⟩] "|"
    ((set [⟨PyVal.int 2, []⟩] "|").toOption.getD []) 0 ⟨PyVal.int 2, []⟩
    "s" ["s", "", "s"] "s" rfl rfl (by decide) rfl
    (by
      intro j reqj p hj hp
      cases j with
      | zero => simp at hj; subst hj; simp at hp
      | succ j' => simp at hj)

end Plural
